import Mathlib

/-!
# A verification model of the `goodbye` package

Shallow embedding of the `goodbye` Go package (files `goodbye_windows.go`,
`goodbye_unix.go`): a handler registry keyed by priority, a one-shot exit
gate built on `sync.Once`, and a signal trap started by `Notify` and undone
by `Reset`.  Concurrent histories are modelled as their linearisations:
a list of gate calls in the order the callers reach the `sync.Once`.
-/

namespace Goodbye

/-- An `os.Signal` interface value as the package sees it:
`nilSig` is the nil interface (the zero value of `var s os.Signal`),
`noSig` is the package's `noSig{}` sentinel (`noSigVal`), and
`sig n` is a real OS signal with number `n` (e.g. `syscall.SIGTERM = sig 15`). -/
inductive GoSignal where
  | nilSig
  | noSig
  | sig (n : Int)
deriving DecidableEq, Repr

/-- The package variable `noSigVal`, passed to `handleOnce` by `Exit`. -/
def noSigVal : GoSignal := GoSignal.noSig

/-- `IsNormalExit(sig)` returns `sig == noSigVal` (Go interface equality:
same dynamic type and value). -/
def IsNormalExit (s : GoSignal) : Bool := s == noSigVal

/-! ## The handler registry: `handlers map[int][]ExitHandler` -/

/-- The contents of the Go map `handlers`: an association list from priority
to the bucket of handlers registered at that priority, keys unique. -/
abbrev RegMap (α : Type) := List (Int × List α)

/-- The entry-assignment done by `RegisterWithPriority`: if the bucket for
`p` exists, append `f` to it (`handlers[priority] = append(a, f)`),
otherwise create a singleton bucket (`handlers[priority] = []ExitHandler{f}`). -/
def mapInsertAppend {α : Type} (m : RegMap α) (p : Int) (f : α) : RegMap α :=
  match m with
  | [] => [(p, [f])]
  | (k, b) :: rest =>
    if k = p then (k, b ++ [f]) :: rest else (k, b) :: mapInsertAppend rest p f

/-- The package variable `handlers`, which is a Go map and hence may be `nil`:
`none` models the nil map that `Reset` leaves behind (`handlers = nil`),
`some m` a non-nil map with contents `m`. -/
abbrev Registry (α : Type) := Option (RegMap α)

/-- A Go runtime panic raised by the modelled code. -/
inductive GoPanic where
  | nilMapWrite
deriving DecidableEq, Repr

/-- `RegisterWithPriority(f, priority)`: writes
`handlers[priority] = ...` in both branches, so on a nil map it panics
(`assignment to entry in nil map`). -/
def RegisterWithPriority {α : Type} (r : Registry α) (f : α) (priority : Int) :
    Except GoPanic (Registry α) :=
  match r with
  | none => Except.error GoPanic.nilMapWrite
  | some m => Except.ok (some (mapInsertAppend m priority f))

/-- `Register(f)` registers with priority 0. -/
def Register {α : Type} (r : Registry α) (f : α) : Except GoPanic (Registry α) :=
  RegisterWithPriority r f 0

/-- The assignment `handlers = nil` performed by `Reset`. -/
def resetHandlers {α : Type} (_ : Registry α) : Registry α := none

/-- The keys of the map, i.e. `for k := range handlers` collected into a slice. -/
def keysOf {α : Type} (m : RegMap α) : List Int := m.map Prod.fst

/-- `handlers[k]` for a non-nil map: the bucket at `k`, or the empty slice. -/
def bucketOf {α : Type} (m : RegMap α) (p : Int) : List α :=
  match m with
  | [] => []
  | (k, b) :: rest => if k = p then b else bucketOf rest p

/-- `handle(ctx, s)`: collect the map keys, `sort.Ints(keys)`, then invoke
each bucket's handlers in slice order.  The result is the sequence of
handlers invoked, in invocation order.  Ranging over a nil map yields
nothing, so a nil registry drains to the empty sequence. -/
def handle {α : Type} (r : Registry α) : List α :=
  match r with
  | none => []
  | some m => (List.insertionSort (· ≤ ·) (keysOf m)).flatMap (fun k => bucketOf m k)

/-! ## The exit gate: `once sync.Once` and `handleOnce` -/

/-- What the sequence protected by the gate did when it ran: the handlers
invoked by `handle` (in order), the signal value passed to each of them,
and the status code passed to `os.Exit`. -/
structure Execution (α : Type) where
  invoked : List α
  signal : GoSignal
  status : Int
deriving DecidableEq, Repr

/-- The observable outcome of one call to `handleOnce`.
`executed e` : this caller claimed the `sync.Once`, ran the drain `e` and
then `os.Exit`.  `blocked` : the gate was already claimed; `once.Do` blocks
until the claimed function returns, and the claimed function ends in
`os.Exit` and never returns, so the caller blocks until process
termination and control never returns to it. -/
inductive CallResult (α : Type) where
  | executed (e : Execution α)
  | blocked
deriving DecidableEq, Repr

/-- The package state the exit gate reads: the variable `ExitCode`
(`exitCodeVar`), the variable `handlers` (`registry`), and the state of
`once` — `none` while unclaimed, `some (s, x)` once claimed, recording the
arguments of the claiming call. -/
structure GateState (α : Type) where
  exitCodeVar : Int
  registry : Registry α
  winner : Option (GoSignal × Int)
deriving DecidableEq, Repr

/-- `handleOnce(ctx, s, x)`: `once.Do` of (`handle(ctx, s)`; `os.Exit(x)`). -/
def handleOnce {α : Type} (st : GateState α) (s : GoSignal) (x : Int) :
    GateState α × CallResult α :=
  match st.winner with
  | none =>
    ({ st with winner := some (s, x) },
     CallResult.executed ⟨handle st.registry, s, x⟩)
  | some _ => (st, CallResult.blocked)

/-- `Exit(ctx, exitCode)`: a negative code is replaced by the package
variable `ExitCode`, then `handleOnce(ctx, noSigVal, exitCode)`. -/
def Exit {α : Type} (st : GateState α) (exitCode : Int) : GateState α × CallResult α :=
  let c := if exitCode < 0 then st.exitCodeVar else exitCode
  handleOnce st noSigVal c

/-! ## `Notify`: parsing the variadic signal spec -/

/-- One element of `Notify`'s `signals ...interface{}` argument, as seen by
its type switch: an `os.Signal` value, an `int`, or anything else
(which matches no case of the switch). -/
inductive NotifyArg where
  | sigArg (s : GoSignal)
  | num (n : Int)
  | other
deriving DecidableEq, Repr

/-- The Go map `map[os.Signal]int` built by `Notify`: association list with
unique keys. -/
abbrev SigSpec := List (GoSignal × Int)

/-- Map assignment `sigs[k] = v`: replace the entry for `k` if present,
otherwise add one. -/
def specInsert (m : SigSpec) (k : GoSignal) (v : Int) : SigSpec :=
  match m with
  | [] => [(k, v)]
  | (k', v') :: rest =>
    if k' = k then (k, v) :: rest else (k', v') :: specInsert rest k v

/-- Map read `x, ok := sigs[k]`. -/
def specLookup (m : SigSpec) (k : GoSignal) : Option Int :=
  match m with
  | [] => none
  | (k', v') :: rest => if k' = k then some v' else specLookup rest k

/-- The loop body of `Notify`'s parse: `m` is `sigs`, `cur` is the local
`var s os.Signal` (initially the nil interface).  A signal entry sets
`sigs[s] = 0` and becomes the current signal; an integer entry sets
`sigs[s] = tv` for the current `s`; other entries match no switch case. -/
def parseGo (m : SigSpec) (cur : GoSignal) : List NotifyArg → SigSpec × GoSignal
  | [] => (m, cur)
  | NotifyArg.sigArg s :: rest => parseGo (specInsert m s 0) s rest
  | NotifyArg.num n :: rest => parseGo (specInsert m cur n) cur rest
  | NotifyArg.other :: rest => parseGo m cur rest

/-- The `sigs` map `Notify` resolves from a non-empty variadic list. -/
def parseSignals (args : List NotifyArg) : SigSpec :=
  (parseGo [] GoSignal.nilSig args).1

/-- The value of the local `s` after the parse loop: the last signal entry
in `args`, or the nil interface if there is none. -/
def lastSig (args : List NotifyArg) : GoSignal :=
  args.foldl (fun cur a => match a with | NotifyArg.sigArg s => s | _ => cur)
    GoSignal.nilSig

/-- The default spec installed by the package's `init` (UNIX build):
`SIGKILL→1, SIGHUP→0, SIGINT→0, SIGQUIT→0, SIGTERM→0`. -/
def defaultSignals : SigSpec :=
  [(GoSignal.sig 9, 1), (GoSignal.sig 1, 0), (GoSignal.sig 2, 0),
   (GoSignal.sig 3, 0), (GoSignal.sig 15, 0)]

/-! ## The signal listener and exit events -/

/-- One iteration of the listener goroutine for a received signal `s`:
look up `x, ok := sigs[s]`; if absent, `continue` (no gate call);
otherwise `handleOnce(ctx, s, x)`. -/
def signalDeliver {α : Type} (sigs : SigSpec) (st : GateState α) (s : GoSignal) :
    GateState α × Option (CallResult α) :=
  match specLookup sigs s with
  | none => (st, none)
  | some x =>
    let r := handleOnce st s x
    (r.1, some r.2)

/-- One call racing toward the gate: an invocation of `Exit` with a code,
or a delivery of a signal through the trap's listener. -/
inductive ExitEvent where
  | exitCall (code : Int)
  | sigDeliver (s : GoSignal)
deriving DecidableEq, Repr

/-- Execute one event against the gate state. -/
def eventStep {α : Type} (sigs : SigSpec) (st : GateState α) (e : ExitEvent) :
    GateState α × Option (CallResult α) :=
  match e with
  | ExitEvent.exitCall c =>
    let r := Exit st c
    (r.1, some r.2)
  | ExitEvent.sigDeliver s => signalDeliver sigs st s

/-- Run a linearised sequence of events, collecting every execution of the
handler-drain-and-terminate sequence that occurs. -/
def runEvents {α : Type} (sigs : SigSpec) (st : GateState α) :
    List ExitEvent → GateState α × List (Execution α)
  | [] => (st, [])
  | e :: rest =>
    let r := eventStep sigs st e
    let rec' := runEvents sigs r.1 rest
    (rec'.1,
     (match r.2 with
      | some (CallResult.executed ex) => [ex]
      | _ => []) ++ rec'.2)

/-- The `(signal, status)` pair an event would present to the gate, or
`none` when the event never reaches the gate (an untrapped signal). -/
def gateParams (sigs : SigSpec) (exitCodeVar : Int) (e : ExitEvent) :
    Option (GoSignal × Int) :=
  match e with
  | ExitEvent.exitCall c => some (noSigVal, if c < 0 then exitCodeVar else c)
  | ExitEvent.sigDeliver s => (specLookup sigs s).map (fun x => (s, x))

/-! ## The trap state: `notified`, `signal.Notify`, `signal.Reset` -/

/-- The process-wide `os/signal` state and the package variable `notified`:
`osTable` is the set (as a list) of signals that currently have a
subscription installed through `os/signal` — by this package or by any
other code in the process; `notifiedVar` is the package-level `notified`
slice, initially nil. -/
structure TrapState where
  osTable : List GoSignal
  notifiedVar : List GoSignal
deriving DecidableEq, Repr

/-- `signal.Notify(c, sigs...)`: installs a subscription for each listed
signal (idempotent per signal). -/
def signalNotifyOS (t : List GoSignal) (sigs : List GoSignal) : List GoSignal :=
  t ++ sigs.filter (fun s => ¬ s ∈ t)

/-- `signal.Reset(sigs...)`: undoes subscriptions for the listed signals;
with an empty argument list it resets the handlers of ALL signals. -/
def signalResetOS (t : List GoSignal) (sigs : List GoSignal) : List GoSignal :=
  if sigs.isEmpty then [] else t.filter (fun s => ¬ s ∈ sigs)

/-- The subscription part of `Notify`: the trapped-signal slice is assigned
to a variable `notified` declared in the function's own `var` block, which
shadows the package-level `notified`; `signal.Notify` is then called with
the local slice, and the package-level `notifiedVar` is left unchanged. -/
def NotifyTrap (st : TrapState) (sigsKeys : List GoSignal) : TrapState :=
  { st with osTable := signalNotifyOS st.osTable sigsKeys }

/-- The trap part of `Reset`: `signal.Reset(notified...)` with the
package-level `notified`, followed by `handlers = nil` (modelled on the
registry by `resetHandlers`). -/
def ResetTrap (st : TrapState) : TrapState :=
  { st with osTable := signalResetOS st.osTable st.notifiedVar }

/-! ## Spec-side descriptions, for comparison with the code -/

/-- A well-formed variadic argument list as the spec describes it: each
signal value optionally followed by one integer status code. -/
def flattenEntries : List (GoSignal × Option Int) → List NotifyArg
  | [] => []
  | (s, none) :: rest => NotifyArg.sigArg s :: flattenEntries rest
  | (s, some n) :: rest =>
    NotifyArg.sigArg s :: NotifyArg.num n :: flattenEntries rest

/-- Fold a sequence of `RegisterWithPriority` calls, given as
(priority, handler) pairs in registration order, into the registry map,
starting from the initial non-nil empty map. -/
def registerAll {α : Type} (rs : List (Int × α)) : RegMap α :=
  rs.foldl (fun m pf => mapInsertAppend m pf.1 pf.2) []

/-- The drain as the spec describes it: all registered handlers sorted
ascending by priority, handlers of equal priority in registration order. -/
def drainSpec {α : Type} (rs : List (Int × α)) : List α :=
  (List.insertionSort (· ≤ ·) (rs.map Prod.fst).dedup).flatMap
    (fun p => (rs.filter (fun q => q.1 = p)).map Prod.snd)

/-- The arguments kept by `Notify`'s type switch: signals and integers;
anything else matches no case. -/
def keptArg : NotifyArg → Bool
  | NotifyArg.other => false
  | _ => true

/-- The running value of the parse loop's local `s`, started from `cur`. -/
def lastSigFrom (cur : GoSignal) (args : List NotifyArg) : GoSignal :=
  args.foldl (fun c a => match a with | NotifyArg.sigArg s => s | _ => c) cur

/-! ## Theorems -/

/-- C3: `IsNormalExit` returns true exactly on the `noSig` sentinel value,
and false on the nil interface value and on every real OS signal value. -/
theorem isNormalExit_iff_sentinel :
    (∀ s : GoSignal, IsNormalExit s = true ↔ s = noSigVal) ∧
    (∀ n : Int, IsNormalExit (GoSignal.sig n) = false) ∧
    IsNormalExit GoSignal.nilSig = false := by
  refine ⟨fun s => ?_, fun n => ?_, rfl⟩
  · cases s <;> simp [IsNormalExit, noSigVal]
  · simp [IsNormalExit, noSigVal]

/-- C3 witness: the sentinel itself is recognised as a normal exit. -/
theorem isNormalExit_iff_sentinel_witness : IsNormalExit noSigVal = true :=
  (isNormalExit_iff_sentinel.1 noSigVal).2 rfl

/-- C4: with the gate unclaimed, `Exit` claims it with the `noSig` sentinel
and terminates with the given code, except that a negative code is replaced
by the package-wide default `ExitCode`. -/
theorem exit_resolves_code {α : Type} (st : GateState α) (code : Int)
    (h : st.winner = none) :
    (Exit st code).2 =
      CallResult.executed
        ⟨handle st.registry, noSigVal, if code < 0 then st.exitCodeVar else code⟩ := by
  simp [Exit, handleOnce, h]

/-- C4 witness: `Exit` with code −1 while the default exit code is 9
terminates with status 9. -/
theorem exit_resolves_code_witness :
    (Exit (α := Nat) ⟨9, some [], none⟩ (-1)).2 =
      CallResult.executed ⟨[], noSigVal, 9⟩ := by
  have h := exit_resolves_code (α := Nat) ⟨9, some [], none⟩ (-1) rfl
  simpa [handle, keysOf] using h

/-- C5 (bug witness): registering after `Reset` does not succeed — `Reset`
leaves `handlers = nil`, and `RegisterWithPriority` assigns to
`handlers[priority]` in both of its branches, which on a nil Go map is the
runtime panic "assignment to entry in nil map". -/
theorem register_after_reset_panics :
    Register (α := Nat) (resetHandlers (some [(0, [1])])) 2 =
      Except.error GoPanic.nilMapWrite := rfl

/-- C6 (bug witness): `Notify` assigns the trapped-signal slice to a
`notified` variable declared in its own `var` block, shadowing the
package-level `notified`, which therefore stays nil; `Reset` then calls
`signal.Reset` with no arguments, which resets the handlers of ALL
signals.  Here `SIGHUP` (sig 1) has a subscription installed by other
code, `Notify` traps only `SIGTERM` (sig 15), and `Reset` nevertheless
cancels both subscriptions. -/
theorem reset_cancels_all_signals :
    (NotifyTrap ⟨[GoSignal.sig 1], []⟩ [GoSignal.sig 15]).notifiedVar = [] ∧
    (NotifyTrap ⟨[GoSignal.sig 1], []⟩ [GoSignal.sig 15]).osTable =
      [GoSignal.sig 1, GoSignal.sig 15] ∧
    (ResetTrap (NotifyTrap ⟨[GoSignal.sig 1], []⟩ [GoSignal.sig 15])).osTable = [] ∧
    ¬ GoSignal.sig 1 ∈ [GoSignal.sig 15] := by
  refine ⟨rfl, by decide, by decide, by decide⟩

/-- C7 counterexample: a caller that reaches `handleOnce` after the gate
has been claimed does not return immediately: `once.Do` makes it wait for
the claimed function, which ends in `os.Exit` and never returns, so the
caller blocks until process termination (`CallResult.blocked`). -/
theorem late_caller_blocks_cex :
    (handleOnce (α := Nat) ⟨0, some [], some (noSigVal, 0)⟩
        (GoSignal.sig 15) 1).2 = CallResult.blocked := rfl

/-- C7 amended: a caller arriving after the gate has been claimed performs
no side effects and never re-runs the drain, but instead of returning
immediately it blocks until the drain and process termination complete. -/
theorem late_caller_no_effect_blocks {α : Type} (st : GateState α)
    (s : GoSignal) (x : Int) (h : st.winner ≠ none) :
    handleOnce st s x = (st, CallResult.blocked) := by
  cases hw : st.winner with
  | none => exact absurd hw h
  | some w => simp [handleOnce, hw]

/-- C7 amended, witness: a concrete late call leaves the state unchanged
and blocks. -/
theorem late_caller_no_effect_blocks_witness :
    handleOnce (α := Nat) ⟨0, some [], some (noSigVal, 3)⟩ (GoSignal.sig 2) 1 =
      (⟨0, some [], some (noSigVal, 3)⟩, CallResult.blocked) :=
  late_caller_no_effect_blocks ⟨0, some [], some (noSigVal, 3)⟩
    (GoSignal.sig 2) 1 (by decide)

/-- C9: a registration followed immediately by `Reset` followed by a drain
yields the empty execution sequence: `Reset` leaves `handlers = nil` and
ranging over a nil map visits nothing. -/
theorem register_reset_drain_empty {α : Type} (r : Registry α) (f : α)
    (p : Int) (r' : Registry α)
    (h : RegisterWithPriority r f p = Except.ok r') :
    handle (resetHandlers r') = [] := rfl

/-- C9 witness: a concrete register–reset–drain round trip is empty. -/
theorem register_reset_drain_empty_witness :
    RegisterWithPriority (α := Nat) (some []) 7 0 = Except.ok (some [(0, [7])]) ∧
    handle (resetHandlers (α := Nat) (some [(0, [7])])) = [] :=
  ⟨rfl, register_reset_drain_empty (some []) 7 0 (some [(0, [7])]) rfl⟩

/-- An event against a claimed gate leaves the state unchanged and never
produces an execution: `Exit` and a trapped delivery find the `sync.Once`
claimed and block; an untrapped delivery is skipped by the listener. -/
theorem eventStep_claimed {α : Type} (sigs : SigSpec) (st : GateState α)
    (e : ExitEvent) (w : GoSignal × Int) (h : st.winner = some w) :
    eventStep sigs st e = (st, some CallResult.blocked) ∨
    eventStep sigs st e = (st, none) := by
  cases e with
  | exitCall c =>
    left
    simp [eventStep, Exit, handleOnce, h]
  | sigDeliver s =>
    cases hl : specLookup sigs s with
    | none =>
      right
      simp [eventStep, signalDeliver, hl]
    | some x =>
      left
      simp [eventStep, signalDeliver, hl, handleOnce, h]

/-- Once the gate is claimed, no tail of events changes the state or adds
an execution. -/
theorem runEvents_claimed {α : Type} (sigs : SigSpec) (st : GateState α)
    (evs : List ExitEvent) (w : GoSignal × Int) (h : st.winner = some w) :
    runEvents sigs st evs = (st, []) := by
  induction evs with
  | nil => rfl
  | cons e rest ih =>
    rcases eventStep_claimed sigs st e w h with hstep | hstep <;>
      simp [runEvents, hstep, ih]

/-- An event against an unclaimed gate behaves according to its gate
parameters: an untrapped delivery is a no-op, and any call that reaches
the gate claims it and runs the drain with that call's parameters. -/
theorem eventStep_unclaimed {α : Type} (sigs : SigSpec) (st : GateState α)
    (e : ExitEvent) (h : st.winner = none) :
    eventStep sigs st e =
      match gateParams sigs st.exitCodeVar e with
      | none => (st, none)
      | some p =>
        ({ st with winner := some p },
         some (CallResult.executed ⟨handle st.registry, p.1, p.2⟩)) := by
  cases e with
  | exitCall c =>
    simp [eventStep, Exit, handleOnce, h, gateParams]
  | sigDeliver s =>
    cases hl : specLookup sigs s <;>
      simp [eventStep, signalDeliver, hl, handleOnce, h, gateParams]

/-- C1: for every linearised sequence of calls to `Exit` and of signal
deliveries through the trap's listener, starting from an unclaimed gate,
the handler-drain-and-terminate sequence executes exactly once when at
least one call reaches the gate — with the signal value and status code of
the first such call — and zero times when none does (the execution list is
the first gate-reaching call's parameters, mapped over at most one
element). -/
theorem gate_executes_exactly_once {α : Type} (sigs : SigSpec)
    (st : GateState α) (evs : List ExitEvent) (h : st.winner = none) :
    (runEvents sigs st evs).2 =
      ((evs.filterMap (gateParams sigs st.exitCodeVar)).head?.map
        (fun p => Execution.mk (handle st.registry) p.1 p.2)).toList := by
  induction evs with
  | nil => rfl
  | cons e rest ih =>
    cases hg : gateParams sigs st.exitCodeVar e with
    | none =>
      have hstep := eventStep_unclaimed sigs st e h
      rw [hg] at hstep
      simp [runEvents, hstep, List.filterMap_cons, hg, ih]
    | some p =>
      have hstep := eventStep_unclaimed sigs st e h
      rw [hg] at hstep
      have hrest := runEvents_claimed sigs { st with winner := some p } rest p rfl
      simp [runEvents, hstep, hrest, List.filterMap_cons, hg]

/-- C1 witness: an untrapped delivery, then `Exit 3`, then a trapped
`SIGTERM` delivery — the drain of the one registered handler runs exactly
once, with the sentinel signal and status 3 from the first gate-reaching
call. -/
theorem gate_executes_exactly_once_witness :
    (runEvents (α := Nat) defaultSignals ⟨0, some [(0, [7])], none⟩
        [ExitEvent.sigDeliver (GoSignal.sig 99), ExitEvent.exitCall 3,
         ExitEvent.sigDeliver (GoSignal.sig 15)]).2 =
      [⟨[7], noSigVal, 3⟩] := by
  rw [gate_executes_exactly_once (α := Nat) defaultSignals
    ⟨0, some [(0, [7])], none⟩
    [ExitEvent.sigDeliver (GoSignal.sig 99), ExitEvent.exitCall 3,
     ExitEvent.sigDeliver (GoSignal.sig 15)] rfl]
  decide

/-- Map update then lookup: reading the written key sees the new value,
reading any other key sees the old map. -/
theorem specLookup_specInsert (m : SigSpec) (k : GoSignal) (v : Int)
    (k' : GoSignal) :
    specLookup (specInsert m k v) k' =
      if k = k' then some v else specLookup m k' := by
  induction m with
  | nil => simp [specInsert, specLookup]
  | cons hd tl ih =>
    by_cases h1 : hd.1 = k <;> by_cases h2 : k = k' <;>
      simp_all [specInsert, specLookup]

/-- The parse loop over a concatenation runs the two halves in sequence. -/
theorem parseGo_append (xs ys : List NotifyArg) (m : SigSpec)
    (cur : GoSignal) :
    parseGo m cur (xs ++ ys) =
      parseGo (parseGo m cur xs).1 (parseGo m cur xs).2 ys := by
  induction xs generalizing m cur with
  | nil => rfl
  | cons a rest ih =>
    cases a <;> simp [parseGo, ih]

/-- After the parse loop, the local `s` holds the last signal entry. -/
theorem parseGo_snd (args : List NotifyArg) (m : SigSpec) (cur : GoSignal) :
    (parseGo m cur args).2 = lastSigFrom cur args := by
  induction args generalizing m cur with
  | nil => rfl
  | cons a rest ih =>
    cases a <;> simp [parseGo, lastSigFrom, List.foldl_cons, ih]

/-- Entries matching no case of the type switch do not affect the parse. -/
theorem parseGo_keptArg (args : List NotifyArg) (m : SigSpec)
    (cur : GoSignal) :
    parseGo m cur (args.filter keptArg) = parseGo m cur args := by
  induction args generalizing m cur with
  | nil => rfl
  | cons a rest ih =>
    cases a <;> simp [parseGo, keptArg, List.filter_cons, ih]

/-- C10: in `Notify`'s parse of a non-empty variadic list, (1) an integer
entry sets the status code of the most recently preceding signal entry,
overwriting any code previously recorded for that signal; (2) entries that
are neither a signal nor an integer are silently skipped; (3) an integer
entry appearing before any signal entry is recorded under the nil signal
value. -/
theorem notify_parse_details :
    (∀ (args : List NotifyArg) (n : Int) (k : GoSignal),
      specLookup (parseSignals (args ++ [NotifyArg.num n])) k =
        if lastSig args = k then some n
        else specLookup (parseSignals args) k) ∧
    (∀ args : List NotifyArg,
      parseSignals (args.filter keptArg) = parseSignals args) ∧
    (∀ n : Int,
      specLookup (parseSignals [NotifyArg.num n]) GoSignal.nilSig = some n) := by
  refine ⟨fun args n k => ?_, fun args => ?_, fun n => ?_⟩
  · have hsnd := parseGo_snd args [] GoSignal.nilSig
    simp only [parseSignals, parseGo_append, parseGo]
    rw [specLookup_specInsert, hsnd]
    rfl
  · simp [parseSignals, parseGo_keptArg]
  · rfl

/-- Keys outside a well-formed entry list are untouched by its parse:
every write in `flattenEntries es` goes to a signal listed in `es`,
because each integer entry is preceded by its own signal entry. -/
theorem parseGo_flatten_preserve (es : List (GoSignal × Option Int))
    (m : SigSpec) (cur : GoSignal) (k : GoSignal)
    (hk : ¬ k ∈ es.map Prod.fst) :
    specLookup (parseGo m cur (flattenEntries es)).1 k = specLookup m k := by
  induction es generalizing m cur with
  | nil => rfl
  | cons hd rest ih =>
    obtain ⟨s', oc'⟩ := hd
    have hks : ¬ k = s' := by
      intro heq
      exact hk (by simp [heq])
    have hkr : ¬ k ∈ rest.map Prod.fst := by
      intro hmem
      exact hk (by simp [hmem])
    have hne : ¬ s' = k := fun heq => hks heq.symm
    cases oc' with
    | none =>
      simp only [flattenEntries, parseGo]
      rw [ih _ _ hkr, specLookup_specInsert, if_neg hne]
    | some n =>
      simp only [flattenEntries, parseGo]
      rw [ih _ _ hkr, specLookup_specInsert, if_neg hne,
        specLookup_specInsert, if_neg hne]

/-- The parse of a well-formed entry list with pairwise distinct signals
maps each listed signal to its status code (defaulting to 0). -/
theorem parseGo_flatten_lookup (es : List (GoSignal × Option Int))
    (m : SigSpec) (cur : GoSignal) (s : GoSignal) (oc : Option Int)
    (hnd : (es.map Prod.fst).Nodup) (hmem : (s, oc) ∈ es) :
    specLookup (parseGo m cur (flattenEntries es)).1 s = some (oc.getD 0) := by
  induction es generalizing m cur with
  | nil => cases hmem
  | cons hd rest ih =>
    obtain ⟨s', oc'⟩ := hd
    have hnd' : (rest.map Prod.fst).Nodup := (List.nodup_cons.mp hnd).2
    have hs' : ¬ s' ∈ rest.map Prod.fst := (List.nodup_cons.mp hnd).1
    rcases List.mem_cons.mp hmem with heq | hrest
    · obtain ⟨hs, hoc⟩ := Prod.mk.injEq .. ▸ heq
      subst hs
      subst hoc
      cases oc with
      | none =>
        simp only [flattenEntries, parseGo]
        rw [parseGo_flatten_preserve rest _ _ s hs', specLookup_specInsert]
        simp
      | some n =>
        simp only [flattenEntries, parseGo]
        rw [parseGo_flatten_preserve rest _ _ s hs', specLookup_specInsert]
        simp
    · cases oc' with
      | none =>
        simp only [flattenEntries, parseGo]
        exact ih _ _ hnd' hrest
      | some n =>
        simp only [flattenEntries, parseGo]
        exact ih _ _ hnd' hrest

/-- C8: for every non-empty variadic list in which each signal value is
optionally followed by one integer (and the listed signals are pairwise
distinct), the resolved spec maps each listed signal to its following
integer when present and to status code 0 otherwise. -/
theorem notify_resolves_spec (es : List (GoSignal × Option Int))
    (hnd : (es.map Prod.fst).Nodup) (s : GoSignal) (oc : Option Int)
    (hmem : (s, oc) ∈ es) :
    specLookup (parseSignals (flattenEntries es)) s = some (oc.getD 0) :=
  parseGo_flatten_lookup es [] GoSignal.nilSig s oc hnd hmem

/-- C8 witness: `Notify(ctx, SIGTERM, 2, SIGINT)` maps SIGTERM to 2 and
SIGINT to 0. -/
theorem notify_resolves_spec_witness :
    specLookup
      (parseSignals
        (flattenEntries [(GoSignal.sig 15, some 2), (GoSignal.sig 2, none)]))
      (GoSignal.sig 15) = some 2 ∧
    specLookup
      (parseSignals
        (flattenEntries [(GoSignal.sig 15, some 2), (GoSignal.sig 2, none)]))
      (GoSignal.sig 2) = some 0 :=
  ⟨notify_resolves_spec [(GoSignal.sig 15, some 2), (GoSignal.sig 2, none)]
      (by decide) (GoSignal.sig 15) (some 2) (by decide),
   notify_resolves_spec [(GoSignal.sig 15, some 2), (GoSignal.sig 2, none)]
      (by decide) (GoSignal.sig 2) none (by decide)⟩

/-- The map assignment of `RegisterWithPriority` changes only its own
bucket: the bucket at the written priority gains the handler at the end,
every other bucket is unchanged. -/
theorem bucketOf_mapInsertAppend {α : Type} (m : RegMap α) (q : Int) (f : α)
    (p : Int) :
    bucketOf (mapInsertAppend m q f) p =
      if q = p then bucketOf m p ++ [f] else bucketOf m p := by
  induction m with
  | nil => by_cases h : q = p <;> simp [mapInsertAppend, bucketOf, h]
  | cons hd tl ih =>
    obtain ⟨k, b⟩ := hd
    by_cases h1 : k = q <;> by_cases h2 : q = p <;> by_cases h3 : k = p <;>
      simp_all [mapInsertAppend, bucketOf]

/-- Folding a registration sequence over the map: each bucket accumulates,
in registration order, exactly the handlers registered at its priority. -/
theorem bucketOf_foldl {α : Type} (rs : List (Int × α)) (m : RegMap α)
    (p : Int) :
    bucketOf (rs.foldl (fun m' pf => mapInsertAppend m' pf.1 pf.2) m) p =
      bucketOf m p ++ (rs.filter (fun q => q.1 = p)).map Prod.snd := by
  induction rs generalizing m with
  | nil => simp
  | cons pf rest ih =>
    rw [List.foldl_cons, ih, bucketOf_mapInsertAppend]
    by_cases h : pf.1 = p <;> simp [List.filter_cons, h]

/-- The keys after a map assignment are the old keys plus the written key. -/
theorem mem_keysOf_mapInsertAppend {α : Type} (m : RegMap α) (q : Int)
    (f : α) (k : Int) :
    k ∈ keysOf (mapInsertAppend m q f) ↔ k ∈ keysOf m ∨ k = q := by
  induction m with
  | nil => simp [mapInsertAppend, keysOf]
  | cons hd tl ih =>
    obtain ⟨k', b⟩ := hd
    by_cases h1 : k' = q <;> simp_all [mapInsertAppend, keysOf] <;> tauto

/-- A map assignment preserves distinctness of the keys. -/
theorem nodup_keysOf_mapInsertAppend {α : Type} (m : RegMap α) (q : Int)
    (f : α) (h : (keysOf m).Nodup) : (keysOf (mapInsertAppend m q f)).Nodup := by
  induction m with
  | nil => simp [mapInsertAppend, keysOf]
  | cons hd tl ih =>
    obtain ⟨k', b⟩ := hd
    simp only [keysOf, List.map_cons, List.nodup_cons] at h
    by_cases h1 : k' = q
    · simp only [mapInsertAppend, if_pos h1, keysOf, List.map_cons,
        List.nodup_cons]
      exact ⟨h.1, h.2⟩
    · simp only [mapInsertAppend, if_neg h1, keysOf, List.map_cons,
        List.nodup_cons]
      refine ⟨?_, ih h.2⟩
      intro hmem
      rcases (mem_keysOf_mapInsertAppend tl q f k').mp hmem with h' | h'
      · exact h.1 h'
      · exact h1 h'

/-- The keys after folding a registration sequence are the old keys plus
the registered priorities. -/
theorem mem_keysOf_foldl {α : Type} (rs : List (Int × α)) (m : RegMap α)
    (k : Int) :
    k ∈ keysOf (rs.foldl (fun m' pf => mapInsertAppend m' pf.1 pf.2) m) ↔
      k ∈ keysOf m ∨ k ∈ rs.map Prod.fst := by
  induction rs generalizing m with
  | nil => simp
  | cons pf rest ih =>
    rw [List.foldl_cons, ih, mem_keysOf_mapInsertAppend]
    simp only [List.map_cons, List.mem_cons]
    tauto

/-- Folding a registration sequence preserves distinctness of the keys. -/
theorem nodup_keysOf_foldl {α : Type} (rs : List (Int × α)) (m : RegMap α)
    (h : (keysOf m).Nodup) :
    (keysOf (rs.foldl (fun m' pf => mapInsertAppend m' pf.1 pf.2) m)).Nodup := by
  induction rs generalizing m with
  | nil => exact h
  | cons pf rest ih => exact ih _ (nodup_keysOf_mapInsertAppend _ _ _ h)

/-- `sort.Ints` over the registry's key set equals the ascending sort of
the distinct registered priorities. -/
theorem sortedKeys_registerAll {α : Type} (rs : List (Int × α)) :
    List.insertionSort (· ≤ ·) (keysOf (registerAll rs)) =
      List.insertionSort (· ≤ ·) (rs.map Prod.fst).dedup := by
  have hnd1 : (keysOf (registerAll rs)).Nodup :=
    nodup_keysOf_foldl rs [] (by simp [keysOf])
  have hnd2 : ((rs.map Prod.fst).dedup).Nodup := List.nodup_dedup _
  have hperm : List.Perm (keysOf (registerAll rs)) (rs.map Prod.fst).dedup := by
    rw [List.perm_ext_iff_of_nodup hnd1 hnd2]
    intro a
    rw [List.mem_dedup]
    simpa [registerAll, keysOf] using mem_keysOf_foldl rs [] a
  exact List.eq_of_perm_of_sorted
    (((List.perm_insertionSort _ _).trans hperm).trans
      (List.perm_insertionSort _ _).symm)
    (List.sorted_insertionSort _ _) (List.sorted_insertionSort _ _)

/-- C2: for every registration sequence, the drain executed inside the
gate invokes all registered handlers sorted ascending by priority, and
handlers registered with the same priority in registration order. -/
theorem drain_ordered {α : Type} (rs : List (Int × α)) :
    handle (some (registerAll rs)) = drainSpec rs := by
  have hb : ∀ k, bucketOf (registerAll rs) k =
      (rs.filter (fun q => q.1 = k)).map Prod.snd := by
    intro k
    simpa [registerAll, bucketOf] using bucketOf_foldl rs [] k
  show (List.insertionSort (· ≤ ·) (keysOf (registerAll rs))).flatMap
      (fun k => bucketOf (registerAll rs) k) = drainSpec rs
  rw [sortedKeys_registerAll]
  unfold drainSpec
  simp only [hb]

end Goodbye
